import Mathlib

/-!
Verification of the ingarden-project motif-stability pipeline.

The definitions below are shallow embeddings of the Python source files
`scripts/motif_stability_test.py`, `scripts/order_invariant_analysis.py`,
`scripts/aggregate_motif_stability.py` and
`compute_segmentation_agreement_map_and_recompute.py`.
Python sets of pairs become `Finset (Nat × Nat)`, permutations become
`List Nat`, floating-point statistics become `ℚ`, strings become
`List Char` where their character content matters, and the agreement
statistics (ARI / kappa), which the spec declares out of scope, are
black-box parameters returning `Except`.
-/

namespace Ingarden

/-- The fixed canonical cover list `COVERS` from `motif_stability_test.py`
(also duplicated verbatim in `order_invariant_analysis.py`). -/
def COVERS : List (Nat × Nat) :=
  [(1, 3), (1, 4), (1, 5),
   (3, 8), (4, 8), (5, 6), (6, 7), (7, 8), (8, 9),
   (9, 10), (10, 11), (11, 12)]

/-- The `front` subset of covers used by rule 2 of both classifiers. -/
def front : Finset (Nat × Nat) := {(1, 3), (1, 4), (1, 5)}

/-- The `bre_set` subset (block/chain covers) used by rule 3. -/
def bre_set : Finset (Nat × Nat) := {(3, 8), (4, 8), (5, 6), (6, 7), (7, 8), (8, 9)}

/-- The `early` subset used by rule 4; the source sets `early = front`. -/
def early : Finset (Nat × Nat) := front

/-- The `late` subset used by rule 4. -/
def late : Finset (Nat × Nat) := {(9, 10), (10, 11), (11, 12)}

/-- Position lookup helper: the Python dict comprehension
`pos = {v: i for i, v in enumerate(perm)}` assigns indices in order, a later
binding overwriting an earlier one, so a lookup returns the index of the
last occurrence.  `permPosAux v perm i0` scans `perm` starting at index
`i0`. -/
def permPosAux (v : Nat) : List Nat → Nat → Option Nat
  | [], _ => none
  | x :: xs, i =>
    match permPosAux v xs (i + 1) with
    | some j => some j
    | none => if x = v then some i else none

/-- `permPos perm v` models `pos.get(v)` for the dict built from
`enumerate(perm)`. -/
def permPos (perm : List Nat) (v : Nat) : Option Nat :=
  permPosAux v perm 0

/-- `compute_violated_covers_from_perm` from `motif_stability_test.py`
lines 45-51: a cover `(a, b)` is collected iff both `a` and `b` are keys of
the position dict and `pos[a] > pos[b]`; the collected list is returned as
a set. -/
def compute_violated_covers_from_perm (perm : List Nat) : Finset (Nat × Nat) :=
  (COVERS.filter fun c =>
    match permPos perm c.1, permPos perm c.2 with
    | some pa, some pb => decide (pb < pa)
    | _, _ => false).toFinset

/-- `classify_first_violated` from `motif_stability_test.py` lines 54-79.
Each `for cov in cover_check_order: if cov in violated_set and cov in S:
return L` loop returns `L` exactly when some element of the check-order
satisfies the test, which `List.any` renders directly. -/
def classify_first_violated (violated_set : Finset (Nat × Nat))
    (cover_check_order : List (Nat × Nat)) : String :=
  if 4 ≤ violated_set.card then "GlobalDistortion"
  else if cover_check_order.any
      (fun cov => decide (cov ∈ violated_set) && decide (cov ∈ front)) then
    "FrontEndMove"
  else if cover_check_order.any
      (fun cov => decide (cov ∈ violated_set) && decide (cov ∈ bre_set)) then
    "BlockReorderExtreme"
  else if ((∃ c ∈ early, c ∈ violated_set) ∧ (∃ c ∈ late, c ∈ violated_set)) ∧
      cover_check_order.any
        (fun cov => decide (cov ∈ violated_set) &&
          (decide (cov ∈ early) || decide (cov ∈ late))) = true then
    "DualClusterOutlier"
  else if 0 < violated_set.card ∧ ¬ (∃ c ∈ front, c ∈ violated_set) then
    "AnchorPreservingDisorder"
  else "Other"

/-- `classify_any_cover` from `motif_stability_test.py` lines 82-97
(the identical function also appears in `order_invariant_analysis.py`
lines 52-73). -/
def classify_any_cover (violated_set : Finset (Nat × Nat)) : String :=
  if 4 ≤ violated_set.card then "GlobalDistortion"
  else if ∃ c ∈ front, c ∈ violated_set then "FrontEndMove"
  else if ∃ c ∈ bre_set, c ∈ violated_set then "BlockReorderExtreme"
  else if (∃ c ∈ early, c ∈ violated_set) ∧ (∃ c ∈ late, c ∈ violated_set) then
    "DualClusterOutlier"
  else if 0 < violated_set.card ∧ ¬ (∃ c ∈ front, c ∈ violated_set) then
    "AnchorPreservingDisorder"
  else "Other"

example : classify_any_cover {(1, 3)} = "FrontEndMove" := by decide

example : classify_first_violated {(9, 10)} COVERS = "AnchorPreservingDisorder" := by decide

example : compute_violated_covers_from_perm [3, 1, 2, 4] = {(1, 3)} := by decide

lemma any_mem_iff (violated S : Finset (Nat × Nat)) (order : List (Nat × Nat))
    (hsub : violated ⊆ COVERS.toFinset) (hcov : ∀ c ∈ COVERS, c ∈ order) :
    (order.any fun cov => decide (cov ∈ violated) && decide (cov ∈ S)) = true ↔
      ∃ c ∈ S, c ∈ violated := by
  simp only [List.any_eq_true, Bool.and_eq_true, decide_eq_true_eq]
  constructor
  · rintro ⟨c, _, hv, hS⟩
    exact ⟨c, hS, hv⟩
  · rintro ⟨c, hS, hv⟩
    exact ⟨c, hcov c (List.mem_toFinset.mp (hsub hv)), hv, hS⟩

lemma any_mem_early_late (violated : Finset (Nat × Nat)) (order : List (Nat × Nat))
    (hsub : violated ⊆ COVERS.toFinset) (hcov : ∀ c ∈ COVERS, c ∈ order)
    (h : ∃ c ∈ early, c ∈ violated) :
    (order.any fun cov => decide (cov ∈ violated) &&
      (decide (cov ∈ early) || decide (cov ∈ late))) = true := by
  obtain ⟨c, hce, hcv⟩ := h
  simp only [List.any_eq_true, Bool.and_eq_true, Bool.or_eq_true, decide_eq_true_eq]
  exact ⟨c, hcov c (List.mem_toFinset.mp (hsub hcv)), hcv, Or.inl hce⟩

/-- Core invariance: provided the violated set is drawn from `COVERS` and the
check-order contains every cover, the scan-based classifier agrees with the
existence-based one. -/
lemma classify_first_eq_any (violated : Finset (Nat × Nat)) (order : List (Nat × Nat))
    (hsub : violated ⊆ COVERS.toFinset) (hcov : ∀ c ∈ COVERS, c ∈ order) :
    classify_first_violated violated order = classify_any_cover violated := by
  unfold classify_first_violated classify_any_cover
  by_cases h4 : 4 ≤ violated.card
  · rw [if_pos h4, if_pos h4]
  · rw [if_neg h4, if_neg h4]
    by_cases hF : ∃ c ∈ front, c ∈ violated
    · rw [if_pos ((any_mem_iff violated front order hsub hcov).mpr hF), if_pos hF]
    · rw [if_neg (fun h => hF ((any_mem_iff violated front order hsub hcov).mp h)),
        if_neg hF]
      by_cases hB : ∃ c ∈ bre_set, c ∈ violated
      · rw [if_pos ((any_mem_iff violated bre_set order hsub hcov).mpr hB), if_pos hB]
      · rw [if_neg (fun h => hB ((any_mem_iff violated bre_set order hsub hcov).mp h)),
          if_neg hB]
        by_cases hEL : (∃ c ∈ early, c ∈ violated) ∧ (∃ c ∈ late, c ∈ violated)
        · rw [if_pos ⟨hEL, any_mem_early_late violated order hsub hcov hEL.1⟩,
            if_pos hEL]
        · rw [if_neg (fun h => hEL h.1), if_neg hEL]

lemma classify_any_cover_ne_dual (violated : Finset (Nat × Nat)) :
    classify_any_cover violated ≠ "DualClusterOutlier" ∧
      classify_any_cover violated ∈
        ["GlobalDistortion", "FrontEndMove", "BlockReorderExtreme",
         "AnchorPreservingDisorder", "Other"] := by
  unfold classify_any_cover
  split_ifs with h1 h2 h3 h4 h5
  · exact ⟨by decide, by decide⟩
  · exact ⟨by decide, by decide⟩
  · exact ⟨by decide, by decide⟩
  · exact absurd h4.1 (by simpa [early] using h2)
  · exact ⟨by decide, by decide⟩
  · exact ⟨by decide, by decide⟩

/-- C1: for every violated-constraint set drawn from the fixed cover list and
every check-order that is a permutation of the full cover list,
`classify_first_violated` returns the same motif label as
`classify_any_cover`; in particular the label does not depend on the
check-order. -/
theorem priority_classifier_agrees_with_any_cover
    (violated : Finset (Nat × Nat)) (order : List (Nat × Nat))
    (hsub : violated ⊆ COVERS.toFinset) (hperm : order.Perm COVERS) :
    classify_first_violated violated order = classify_any_cover violated :=
  classify_first_eq_any violated order hsub (fun _ hc => hperm.mem_iff.mpr hc)

theorem priority_classifier_agrees_with_any_cover_witness :
    (({(1, 3), (9, 10)} : Finset (Nat × Nat)) ⊆ COVERS.toFinset ∧
        COVERS.reverse.Perm COVERS) ∧
      classify_first_violated {(1, 3), (9, 10)} COVERS.reverse =
        classify_any_cover {(1, 3), (9, 10)} :=
  ⟨⟨by decide, by decide⟩,
    priority_classifier_agrees_with_any_cover {(1, 3), (9, 10)} COVERS.reverse
      (by decide) (by decide)⟩

/-- C10: under the precondition that the check-order contains every cover of
the fixed cover list and the violated set is a subset of that list, neither
classifier ever returns "DualClusterOutlier": any violated early (= front)
cover already fires the higher-priority "FrontEndMove" rule, so the output
lies in the remaining five labels. -/
theorem dual_cluster_outlier_unreachable
    (violated : Finset (Nat × Nat)) (order : List (Nat × Nat))
    (hsub : violated ⊆ COVERS.toFinset) (hcov : ∀ c ∈ COVERS, c ∈ order) :
    classify_first_violated violated order ≠ "DualClusterOutlier" ∧
      classify_any_cover violated ≠ "DualClusterOutlier" ∧
      classify_first_violated violated order ∈
        ["GlobalDistortion", "FrontEndMove", "BlockReorderExtreme",
         "AnchorPreservingDisorder", "Other"] ∧
      classify_any_cover violated ∈
        ["GlobalDistortion", "FrontEndMove", "BlockReorderExtreme",
         "AnchorPreservingDisorder", "Other"] := by
  have heq := classify_first_eq_any violated order hsub hcov
  have hne := classify_any_cover_ne_dual violated
  exact ⟨heq ▸ hne.1, hne.1, heq ▸ hne.2, hne.2⟩

theorem dual_cluster_outlier_unreachable_witness :
    (({(1, 3), (9, 10)} : Finset (Nat × Nat)) ⊆ COVERS.toFinset ∧
        (∀ c ∈ COVERS, c ∈ COVERS)) ∧
      classify_first_violated {(1, 3), (9, 10)} COVERS ≠ "DualClusterOutlier" :=
  ⟨⟨by decide, fun _ hc => hc⟩,
    (dual_cluster_outlier_unreachable {(1, 3), (9, 10)} COVERS (by decide)
      (fun _ hc => hc)).1⟩

lemma compute_violated_subset (perm : List Nat) :
    compute_violated_covers_from_perm perm ⊆ COVERS.toFinset := by
  intro c hc
  rw [List.mem_toFinset]
  rw [compute_violated_covers_from_perm, List.mem_toFinset] at hc
  exact (List.mem_filter.mp hc).1

/-- One update of the Python `Counter`: `modal_counts[lab] += 1` bumps the
count of an existing key in place, otherwise appends the key with count 1
(insertion order is preserved, as in CPython 3.7+ dicts). -/
def incr : List (String × Nat) → String → List (String × Nat)
  | [], lab => [(lab, 1)]
  | (k, c) :: rest, lab =>
    if k = lab then (k, c + 1) :: rest else (k, c) :: incr rest lab

/-- The `Counter` built from the sampled labels. -/
def tally (labs : List String) : List (String × Nat) :=
  labs.foldl incr []

/-- `Counter.most_common(1)[0][0]`: the first key of maximal count, ties
broken by earliest insertion (the underlying sort is stable and
descending). -/
def mostCommon (counts : List (String × Nat)) : Option String :=
  (counts.foldl (fun best p =>
    match best with
    | none => some p
    | some q => if q.2 < p.2 then some p else some q) none).map Prod.fst

/-- The per-row body of the module-level stability sampling loop of
`motif_stability_test.py` lines 114-149: compute the violated set and the
baseline label (check-order `COVERS.copy()`); if the violated set is empty,
stability is `1.0` and the modal label is the baseline label; otherwise
classify under each sampled check-order, count agreements with the baseline
and divide by the number of samples, and take the modal label of the
counter.  The sampled check-orders are passed in as the list `orders`
(each one a `random.shuffle`d copy of `COVERS` in the source). -/
def stability_row (perm : List Nat) (orders : List (List (Nat × Nat))) :
    ℚ × Option String :=
  let violated := compute_violated_covers_from_perm perm
  let baseline_label := classify_first_violated violated COVERS
  if violated = ∅ then (1, some baseline_label)
  else
    let labs := orders.map fun o => classify_first_violated violated o
    let same_count := labs.countP fun lab => lab == baseline_label
    ((same_count : ℚ) / (orders.length : ℚ), mostCommon (tally labs))

lemma foldl_incr_const (labs : List String) (b : String) (k : Nat)
    (hall : ∀ l ∈ labs, l = b) :
    labs.foldl incr [(b, k)] = [(b, k + labs.length)] := by
  induction labs generalizing k with
  | nil => simp
  | cons l rest ih =>
    have hl : l = b := hall l (List.mem_cons_self l rest)
    subst hl
    have : incr [(l, k)] l = [(l, k + 1)] := by simp [incr]
    rw [List.foldl_cons, this, ih (k + 1) (fun x hx => hall x (List.mem_cons_of_mem _ hx))]
    simp [Nat.add_assoc, Nat.add_comm 1]

lemma tally_const (labs : List String) (b : String) (hne : labs ≠ [])
    (hall : ∀ l ∈ labs, l = b) :
    tally labs = [(b, labs.length)] := by
  cases labs with
  | nil => exact absurd rfl hne
  | cons l rest =>
    have hl : l = b := hall l (List.mem_cons_self l rest)
    subst hl
    have h1 : incr [] l = [(l, 1)] := rfl
    rw [tally, List.foldl_cons, h1,
      foldl_incr_const rest l 1 (fun x hx => hall x (List.mem_cons_of_mem _ hx))]
    simp [Nat.add_comm]

/-- C2: for every input row and every nonempty sequence of sampled
check-orders, each a shuffled copy of the full cover list, the written
`stability_fraction_first` equals `1.0` and `modal_label_first` equals
`baseline_first_label`: the empty-violated branch yields them explicitly,
and otherwise every sampled classification equals the baseline
classification. -/
theorem stability_row_always_one (perm : List Nat) (orders : List (List (Nat × Nat)))
    (hne : orders ≠ []) (hperm : ∀ o ∈ orders, o.Perm COVERS) :
    stability_row perm orders =
      (1, some (classify_first_violated (compute_violated_covers_from_perm perm) COVERS)) := by
  rw [stability_row]
  by_cases hv : compute_violated_covers_from_perm perm = ∅
  · simp [hv]
  · simp only [if_neg hv]
    have hsub := compute_violated_subset perm
    have hbase : ∀ o ∈ orders,
        classify_first_violated (compute_violated_covers_from_perm perm) o =
          classify_first_violated (compute_violated_covers_from_perm perm) COVERS := by
      intro o ho
      rw [classify_first_eq_any _ o hsub (fun _ hc => (hperm o ho).mem_iff.mpr hc),
        classify_first_eq_any _ COVERS hsub (fun _ hc => hc)]
    have hall : ∀ lab ∈ orders.map
        (fun o => classify_first_violated (compute_violated_covers_from_perm perm) o),
        lab = classify_first_violated (compute_violated_covers_from_perm perm) COVERS := by
      intro lab hlab
      obtain ⟨o, ho, rfl⟩ := List.mem_map.mp hlab
      exact hbase o ho
    have hmapne : orders.map
        (fun o => classify_first_violated (compute_violated_covers_from_perm perm) o) ≠ [] := by
      simpa using hne
    have hcount : (orders.map
        (fun o => classify_first_violated (compute_violated_covers_from_perm perm) o)).countP
          (fun lab => lab == classify_first_violated
            (compute_violated_covers_from_perm perm) COVERS) =
        orders.length := by
      rw [List.countP_eq_length.mpr (fun a ha => by
        simp only [beq_iff_eq]
        exact hall a ha)]
      simp
  -- stability fraction: all samples agree, so count/length = 1
    have hlen : (orders.length : ℚ) ≠ 0 := by
      simpa using List.length_pos.mpr hne |>.ne'
    rw [tally_const _ _ hmapne hall, hcount, div_self hlen]
    simp [mostCommon]

theorem stability_row_always_one_witness :
    ([COVERS.reverse] ≠ ([] : List (List (Nat × Nat))) ∧
        ∀ o ∈ [COVERS.reverse], o.Perm COVERS) ∧
      stability_row [3, 1, 2, 4] [COVERS.reverse] =
        (1, some (classify_first_violated
          (compute_violated_covers_from_perm [3, 1, 2, 4]) COVERS)) :=
  ⟨⟨by decide, by decide⟩,
    stability_row_always_one [3, 1, 2, 4] [COVERS.reverse] (by decide) (by decide)⟩

lemma permPosAux_eq_none (v : Nat) (perm : List Nat) (i : Nat) (h : v ∉ perm) :
    permPosAux v perm i = none := by
  induction perm generalizing i with
  | nil => rfl
  | cons x xs ih =>
    have hx : x ≠ v := fun he => h (he ▸ List.mem_cons_self x xs)
    have hv : v ∉ xs := fun hv => h (List.mem_cons_of_mem _ hv)
    simp [permPosAux, ih (i + 1) hv, hx]

lemma permPosAux_nodup (v : Nat) (perm : List Nat) (i : Nat)
    (hnd : perm.Nodup) (h : v ∈ perm) :
    permPosAux v perm i = some (i + perm.indexOf v) := by
  induction perm generalizing i with
  | nil => exact absurd h (List.not_mem_nil v)
  | cons x xs ih =>
    obtain ⟨hx_nmem, hxs_nd⟩ := List.nodup_cons.mp hnd
    by_cases hv : v ∈ xs
    · have hx : x ≠ v := fun he => hx_nmem (he ▸ hv)
      have hidx : (x :: xs).indexOf v = xs.indexOf v + 1 := by
        simp [List.indexOf_cons, hx]
      rw [permPosAux, ih (i + 1) hxs_nd hv, hidx]
      simp only [Option.some.injEq]
      omega
    · have hx : x = v := by
        rcases List.mem_cons.mp h with he | he
        · exact he.symm
        · exact absurd he hv
      subst hx
      have hidx : (x :: xs).indexOf x = 0 := by simp [List.indexOf_cons]
      rw [permPosAux, permPosAux_eq_none x xs (i + 1) hv, hidx]
      simp

lemma permPos_of_mem (perm : List Nat) (v : Nat) (hnd : perm.Nodup) (h : v ∈ perm) :
    permPos perm v = some (perm.indexOf v) := by
  rw [permPos, permPosAux_nodup v perm 0 hnd h, Nat.zero_add]

lemma permPos_of_not_mem (perm : List Nat) (v : Nat) (h : v ∉ perm) :
    permPos perm v = none :=
  permPosAux_eq_none v perm 0 h

/-- C5: for every permutation (duplicate-free list of integers),
`compute_violated_covers_from_perm` returns exactly the pairs `(a, b)` of
the fixed cover list with both `a` and `b` occurring in the permutation and
`a`'s position exceeding `b`'s position; covers referencing an absent
identifier are never in the result, and the result is always a subset of
the cover list. -/
theorem violated_covers_characterization (perm : List Nat) (hnd : perm.Nodup) :
    (∀ a b : Nat,
        (a, b) ∈ compute_violated_covers_from_perm perm ↔
          (a, b) ∈ COVERS ∧ a ∈ perm ∧ b ∈ perm ∧ perm.indexOf b < perm.indexOf a) ∧
      compute_violated_covers_from_perm perm ⊆ COVERS.toFinset := by
  refine ⟨fun a b => ?_, compute_violated_subset perm⟩
  rw [compute_violated_covers_from_perm, List.mem_toFinset, List.mem_filter]
  constructor
  · rintro ⟨hmem, hpred⟩
    refine ⟨hmem, ?_⟩
    by_cases ha : a ∈ perm
    · by_cases hb : b ∈ perm
      · rw [permPos_of_mem perm a hnd ha, permPos_of_mem perm b hnd hb] at hpred
        exact ⟨ha, hb, of_decide_eq_true hpred⟩
      · rw [permPos_of_not_mem perm b hb] at hpred
        cases hpos : permPos perm a <;> rw [hpos] at hpred <;> exact absurd hpred (by simp)
    · rw [permPos_of_not_mem perm a ha] at hpred
      exact absurd hpred (by simp)
  · rintro ⟨hmem, ha, hb, hlt⟩
    refine ⟨hmem, ?_⟩
    rw [permPos_of_mem perm a hnd ha, permPos_of_mem perm b hnd hb]
    exact decide_eq_true hlt

theorem violated_covers_characterization_witness :
    ([3, 1, 2, 4] : List Nat).Nodup ∧
      ((1, 3) ∈ compute_violated_covers_from_perm [3, 1, 2, 4] ↔
        (1, 3) ∈ COVERS ∧ 1 ∈ ([3, 1, 2, 4] : List Nat) ∧
          3 ∈ ([3, 1, 2, 4] : List Nat) ∧
          ([3, 1, 2, 4] : List Nat).indexOf 3 < ([3, 1, 2, 4] : List Nat).indexOf 1) :=
  ⟨by decide, (violated_covers_characterization [3, 1, 2, 4] (by decide)).1 1 3⟩

/-- `jaccard` from `aggregate_motif_stability.py` lines 71-76: `1.0` when
both sets are empty, otherwise `|a ∩ b| / |a ∪ b|` guarded by `uni > 0`
(with `0.0` as the guard's fallback). -/
def jaccard (a b : Finset Nat) : ℚ :=
  if a = ∅ ∧ b = ∅ then 1
  else if 0 < (a ∪ b).card then ((a ∩ b).card : ℚ) / ((a ∪ b).card : ℚ)
  else 0

/-- C8: `jaccard` is symmetric, equals `1.0` on any non-empty set paired
with itself, equals `1.0` on the pair of empty sets by convention, and is
total: whenever the union is empty (the only division-by-zero hazard) the
convention branch already returns `1.0` without dividing. -/
theorem jaccard_properties :
    (∀ a b : Finset Nat, jaccard a b = jaccard b a) ∧
      (∀ a : Finset Nat, a ≠ ∅ → jaccard a a = 1) ∧
      jaccard (∅ : Finset Nat) ∅ = 1 ∧
      (∀ a b : Finset Nat, a ∪ b = ∅ → jaccard a b = 1) := by
  refine ⟨fun a b => ?_, fun a ha => ?_, by simp [jaccard], fun a b h => ?_⟩
  · rw [jaccard, jaccard, Finset.union_comm b a, Finset.inter_comm b a]
    exact if_congr and_comm rfl rfl
  · have hcard : 0 < a.card := Finset.card_pos.mpr (Finset.nonempty_iff_ne_empty.mpr ha)
    rw [jaccard, if_neg (fun hc => ha hc.1), Finset.union_self, Finset.inter_self,
      if_pos hcard, div_self (by exact_mod_cast hcard.ne')]
  · obtain ⟨ha, hb⟩ := Finset.union_eq_empty.mp h
    simp [jaccard, ha, hb]

theorem jaccard_properties_witness :
    ({1} : Finset Nat) ≠ ∅ ∧ jaccard {1} {1} = 1 :=
  ⟨by decide, jaccard_properties.2.1 {1} (by decide)⟩

/-- The count threshold `math.ceil(consensus_fraction * m)` from
`compute_consensus_for_component`. -/
def consensus_threshold (φ : ℚ) (m : Nat) : ℤ := ⌈φ * m⌉

/-- The consensus permutation-index set of `compute_consensus_for_component`
(`aggregate_motif_stability.py` lines 115-144): `perm_counts` counts, for
each index appearing in some member cluster, how many member clusters
contain it, and the consensus keeps those whose count reaches
`ceil(consensus_fraction * m)`. -/
def compute_consensus_perms (members : List (Finset Nat)) (φ : ℚ) : Finset Nat :=
  (members.foldl (· ∪ ·) ∅).filter fun p =>
    consensus_threshold φ members.length ≤ (members.countP fun s => decide (p ∈ s) : ℤ)

lemma mem_foldl_union (members : List (Finset Nat)) (acc : Finset Nat) (p : Nat) :
    p ∈ members.foldl (· ∪ ·) acc ↔ p ∈ acc ∨ ∃ s ∈ members, p ∈ s := by
  induction members generalizing acc with
  | nil => simp
  | cons s rest ih =>
    rw [List.foldl_cons, ih]
    simp only [Finset.mem_union, List.mem_cons]
    constructor
    · rintro (⟨h | h⟩ | ⟨t, ht, hp⟩)
      · exact Or.inl h
      · exact Or.inr ⟨s, Or.inl rfl, h⟩
      · exact Or.inr ⟨t, Or.inr ht, hp⟩
    · rintro (h | ⟨t, rfl | ht, hp⟩)
      · exact Or.inl (Or.inl h)
      · exact Or.inl (Or.inr hp)
      · exact Or.inr ⟨t, ht, hp⟩

/-- C7: the consensus permutation-index set contains exactly the indices
occurring in at least `⌈φ·m⌉` member clusters; with `φ = 0.5` a component
of size `m = 4` requires occurrence count `≥ 2` and a component of size
`m = 3` also requires count `≥ 2`. -/
theorem consensus_perms_characterization :
    (∀ (members : List (Finset Nat)) (φ : ℚ) (p : Nat),
        p ∈ compute_consensus_perms members φ ↔
          (∃ s ∈ members, p ∈ s) ∧
            consensus_threshold φ members.length ≤
              (members.countP fun s => decide (p ∈ s) : ℤ)) ∧
      (∀ (members : List (Finset Nat)), members.length = 4 → ∀ p : Nat,
        (p ∈ compute_consensus_perms members (1 / 2) ↔
          (∃ s ∈ members, p ∈ s) ∧
            2 ≤ members.countP fun s => decide (p ∈ s))) ∧
      (∀ (members : List (Finset Nat)), members.length = 3 → ∀ p : Nat,
        (p ∈ compute_consensus_perms members (1 / 2) ↔
          (∃ s ∈ members, p ∈ s) ∧
            2 ≤ members.countP fun s => decide (p ∈ s))) := by
  have hmain : ∀ (members : List (Finset Nat)) (φ : ℚ) (p : Nat),
      p ∈ compute_consensus_perms members φ ↔
        (∃ s ∈ members, p ∈ s) ∧
          consensus_threshold φ members.length ≤
            (members.countP fun s => decide (p ∈ s) : ℤ) := by
    intro members φ p
    rw [compute_consensus_perms, Finset.mem_filter, mem_foldl_union]
    simp
  refine ⟨hmain, fun members hm p => ?_, fun members hm p => ?_⟩
  · rw [hmain members (1 / 2) p, hm]
    have hceil : consensus_threshold (1 / 2) 4 = 2 := by
      rw [consensus_threshold]
      norm_num
    rw [hceil]
    exact and_congr_right fun _ => by omega
  · rw [hmain members (1 / 2) p, hm]
    have hceil : consensus_threshold (1 / 2) 3 = 2 := by
      rw [consensus_threshold]
      rw [show (1 / 2 : ℚ) * (3 : Nat) = 3 / 2 by norm_num]
      rw [Int.ceil_eq_iff]
      norm_num
    rw [hceil]
    exact and_congr_right fun _ => by omega

theorem consensus_perms_characterization_witness :
    ([({1, 2} : Finset Nat), {1, 3}, {1, 4}, {2, 3}].length = 4) ∧
      (5 ∈ compute_consensus_perms [({1, 2} : Finset Nat), {1, 3}, {1, 4}, {2, 3}] (1 / 2) ↔
        (∃ s ∈ [({1, 2} : Finset Nat), {1, 3}, {1, 4}, {2, 3}], 5 ∈ s) ∧
          2 ≤ [({1, 2} : Finset Nat), {1, 3}, {1, 4}, {2, 3}].countP
            fun s => decide (5 ∈ s)) :=
  ⟨rfl, consensus_perms_characterization.2.1
    [({1, 2} : Finset Nat), {1, 3}, {1, 4}, {2, 3}] rfl 5⟩

/-- The normalized position `perm.index(node) / max(1, len(perm) - 1)` from
`compute_event_position_stats` (`aggregate_motif_stability.py` line 175). -/
def normalized_position (perm : List Nat) (node : Nat) : ℚ :=
  (perm.indexOf node : ℚ) / ((max 1 (perm.length - 1) : Nat) : ℚ)

/-- The list comprehension collecting, over the consensus permutations, the
normalized positions of `node` in the permutations that contain it
(`aggregate_motif_stability.py` lines 172-175). -/
def node_positions (node : Nat) (perms : List (List Nat)) : List ℚ :=
  (perms.filter fun perm => decide (node ∈ perm)).map
    fun perm => normalized_position perm node

/-- `pos_stats[node] = sum(positions)/len(positions) if positions else None`
(`aggregate_motif_stability.py` line 176). -/
def mean_normalized_position (node : Nat) (perms : List (List Nat)) : Option ℚ :=
  let ps := node_positions node perms
  if ps.isEmpty then none else some (ps.sum / (ps.length : ℚ))

/-- C4 counterexample: for the single-element permutation `[7]` the
computed normalized position of event `7` is `0 / max(1, 0) = 0`, not `1`
as the claim states. -/
theorem normalized_position_singleton_ne_one :
    ¬ (normalized_position [7] 7 = 1) := by
  have h : normalized_position [7] 7 = 0 := by
    rw [normalized_position]
    norm_num
  rw [h]
  norm_num

/-- C4 (amended): for an event occurring in a permutation, the normalized
position is its zero-based index divided by (sequence length − 1) when the
length is at least 2, equals `0` (not `1`) for a single-element
permutation, and events absent from a given permutation are omitted from
that permutation's contribution to the per-event positions and mean. -/
theorem normalized_position_properties (perm : List Nat) (node : Nat) (h : node ∈ perm) :
    (2 ≤ perm.length →
        normalized_position perm node =
          (perm.indexOf node : ℚ) / ((perm.length : ℚ) - 1)) ∧
      (perm.length = 1 → normalized_position perm node = 0) ∧
      (∀ (p : List Nat) (perms : List (List Nat)), node ∉ p →
        node_positions node (p :: perms) = node_positions node perms) ∧
      (∀ (p : List Nat) (perms : List (List Nat)), node ∉ p →
        mean_normalized_position node (p :: perms) = mean_normalized_position node perms) := by
  have hfilter : ∀ (p : List Nat) (perms : List (List Nat)), node ∉ p →
      node_positions node (p :: perms) = node_positions node perms := by
    intro p perms hp
    rw [node_positions, node_positions, List.filter_cons]
    simp [hp]
  refine ⟨fun hlen => ?_, fun hlen => ?_, hfilter, fun p perms hp => ?_⟩
  · rw [normalized_position]
    have hmax : max 1 (perm.length - 1) = perm.length - 1 := by omega
    rw [hmax, Nat.cast_sub (by omega), Nat.cast_one]
  · have hidx : perm.indexOf node = 0 := by
      have := List.indexOf_lt_length.mpr h
      omega
    rw [normalized_position, hidx]
    simp
  · rw [mean_normalized_position, mean_normalized_position, hfilter p perms hp]

theorem normalized_position_properties_witness :
    (7 ∈ ([3, 7] : List Nat)) ∧
      (2 ≤ ([3, 7] : List Nat).length →
        normalized_position [3, 7] 7 =
          (([3, 7] : List Nat).indexOf 7 : ℚ) / ((([3, 7] : List Nat).length : ℚ) - 1)) :=
  ⟨by decide, (normalized_position_properties [3, 7] 7 (by decide)).1⟩

/-- The inner join performed by `compute_agreement` in
`compute_segmentation_agreement_map_and_recompute.py` line 134:
`df.dropna(subset=['primary_label_canonical', col_parse])` keeps exactly
the rows where both the canonical label and the mapped parse label are
present.  A row is modelled as the pair of those two optional labels. -/
def inner_join (rows : List (Option String × Option String)) : List (String × String) :=
  rows.filterMap fun r =>
    match r with
    | (some a, some b) => some (a, b)
    | _ => none

/-- `compute_agreement` (`compute_segmentation_agreement_map_and_recompute.py`
lines 133-141).  The Adjusted Rand Index and Cohen's kappa library calls are
out of scope per the spec and appear as black-box parameters which may fail
(`Except`), modelling a raised exception; the empty-join guard returns the
`'NA'` markers before either is invoked. -/
def compute_agreement
    (ariF kappaF : List (String × String) → Except String ℚ)
    (rows : List (Option String × Option String)) :
    Except String (Sum String ℚ × Sum String ℚ) :=
  let sub := inner_join rows
  if sub.isEmpty then Except.ok (Sum.inl "NA", Sum.inl "NA")
  else do
    let ari ← ariF sub
    let kappa ← kappaF sub
    return (Sum.inr ari, Sum.inr kappa)

/-- C9: whenever the inner join of canonical labels with a mapped parse
labeling is empty, `compute_agreement` returns the not-available marker
`'NA'` for both statistics and never propagates an exception to the caller,
whatever the (possibly failing) black-box statistic functions do. -/
theorem compute_agreement_empty_join
    (ariF kappaF : List (String × String) → Except String ℚ)
    (rows : List (Option String × Option String))
    (h : inner_join rows = []) :
    compute_agreement ariF kappaF rows = Except.ok (Sum.inl "NA", Sum.inl "NA") := by
  rw [compute_agreement]
  simp [h]

theorem compute_agreement_empty_join_witness :
    inner_join [(some "FrontEndMove", none)] = [] ∧
      compute_agreement (fun _ => Except.error "ari failed")
        (fun _ => Except.error "kappa failed")
        [(some "FrontEndMove", none)] = Except.ok (Sum.inl "NA", Sum.inl "NA") :=
  ⟨rfl, compute_agreement_empty_join (fun _ => Except.error "ari failed")
    (fun _ => Except.error "kappa failed") [(some "FrontEndMove", none)] rfl⟩

/-- Decimal rendering of a natural number (fuel-structural so that it
evaluates in the kernel); `natCharsAux (n + 1) n` produces the usual
base-10 digit string. -/
def natCharsAux : Nat → Nat → List Char
  | 0, _ => []
  | fuel + 1, n =>
    if n < 10 then [Nat.digitChar n]
    else natCharsAux fuel (n / 10) ++ [Nat.digitChar (n % 10)]

/-- The decimal digit string of `n`, e.g. `natChars 12 = ['1', '2']`. -/
def natChars (n : Nat) : List Char :=
  natCharsAux (n + 1) n

/-- Python `str.split()` with no argument: split on runs of whitespace and
drop empty tokens.  `cur` accumulates the current token reversed. -/
def splitWSAux : List Char → List Char → List (List Char)
  | [], cur => if cur.isEmpty then [] else [cur.reverse]
  | c :: cs, cur =>
    if c.isWhitespace then
      if cur.isEmpty then splitWSAux cs [] else cur.reverse :: splitWSAux cs []
    else splitWSAux cs (c :: cur)

/-- `str(s).strip().split()` in `parse_perm`: splitting already discards
all surrounding whitespace, so the leading `strip()` does not change the
token list. -/
def str_split (s : List Char) : List (List Char) :=
  splitWSAux s []

/-- Python `str.strip()`: drop leading and trailing whitespace. -/
def pyStrip (t : List Char) : List Char :=
  ((t.dropWhile Char.isWhitespace).reverse.dropWhile Char.isWhitespace).reverse

/-- Python `str.isdigit()` (restricted to ASCII content, all the source
ever feeds it): non-empty and every character a digit. -/
def isDigitTok (t : List Char) : Bool :=
  !t.isEmpty && t.all Char.isDigit

/-- Python `int(t)` on a digit token. -/
def tokNat (t : List Char) : Nat :=
  t.foldl (fun acc c => acc * 10 + (c.toNat - 48)) 0

/-- `parse_perm` from `motif_stability_test.py` lines 39-43 (duplicated in
`order_invariant_analysis.py` lines 36-40): `None` maps to `[]`; otherwise
tokenize on whitespace and keep `int(t)` for the tokens `t` with
`t.strip().isdigit()`. -/
def parse_perm : Option (List Char) → List Nat
  | none => []
  | some s =>
    ((str_split s).filter fun t => isDigitTok (pyStrip t)).map
      fun t => tokNat (pyStrip t)

/-- `sep.flatten(parts)` for a one-character separator, used to build the
whitespace-separated and `;`-separated serializations of a permutation. -/
def joinTok (sep : Char) : List (List Char) → List Char
  | [] => []
  | [p] => p
  | p :: q :: ps => p ++ sep :: joinTok sep (q :: ps)

lemma natCharsAux_irrel (f₁ : Nat) : ∀ (f₂ n : Nat), n < f₁ → n < f₂ →
    natCharsAux f₁ n = natCharsAux f₂ n := by
  induction f₁ with
  | zero => intro f₂ n h₁; omega
  | succ f₁ ih =>
    intro f₂ n h₁ h₂
    cases f₂ with
    | zero => omega
    | succ f₂ =>
      rw [natCharsAux, natCharsAux]
      by_cases h10 : n < 10
      · rw [if_pos h10, if_pos h10]
      · rw [if_neg h10, if_neg h10, ih f₂ (n / 10) (by omega) (by omega)]

lemma natChars_unfold (n : Nat) :
    natChars n = if n < 10 then [Nat.digitChar n]
      else natChars (n / 10) ++ [Nat.digitChar (n % 10)] := by
  rw [natChars, natCharsAux]
  by_cases h10 : n < 10
  · rw [if_pos h10, if_pos h10]
  · rw [if_neg h10, if_neg h10, natChars,
      natCharsAux_irrel n (n / 10 + 1) (n / 10) (by omega) (by omega)]

lemma digitChar_facts (d : Nat) (hd : d < 10) :
    (Nat.digitChar d).isDigit = true ∧ (Nat.digitChar d).isWhitespace = false ∧
      Nat.digitChar d ≠ ';' ∧ (Nat.digitChar d).toNat = 48 + d := by
  interval_cases d <;> exact ⟨by decide, by decide, by decide, by decide⟩

lemma natChars_spec (n : Nat) :
    natChars n ≠ [] ∧ ∀ c ∈ natChars n, ∃ d, d < 10 ∧ c = Nat.digitChar d := by
  induction n using Nat.strong_induction_on with
  | _ n ih =>
    rw [natChars_unfold]
    by_cases h10 : n < 10
    · rw [if_pos h10]
      exact ⟨by simp, fun c hc => ⟨n, h10, List.mem_singleton.mp hc⟩⟩
    · rw [if_neg h10]
      refine ⟨by simp, fun c hc => ?_⟩
      rcases List.mem_append.mp hc with h | h
      · exact (ih (n / 10) (by omega)).2 c h
      · exact ⟨n % 10, by omega, List.mem_singleton.mp h⟩

lemma tokNat_append_digit (ds : List Char) (c : Char) :
    tokNat (ds ++ [c]) = tokNat ds * 10 + (c.toNat - 48) := by
  rw [tokNat, tokNat, List.foldl_append]
  rfl

lemma tokNat_natChars (n : Nat) : tokNat (natChars n) = n := by
  induction n using Nat.strong_induction_on with
  | _ n ih =>
    rw [natChars_unfold]
    by_cases h10 : n < 10
    · rw [if_pos h10]
      have h := (digitChar_facts n h10).2.2.2
      simp [tokNat, h]
    · rw [if_neg h10, tokNat_append_digit, ih (n / 10) (by omega),
        (digitChar_facts (n % 10) (by omega)).2.2.2]
      omega

lemma splitWSAux_consume (p : List Char) (hp : ∀ c ∈ p, c.isWhitespace = false) :
    ∀ (rest cur : List Char), splitWSAux (p ++ rest) cur = splitWSAux rest (p.reverse ++ cur) := by
  induction p with
  | nil => intro rest cur; simp
  | cons c p' ih =>
    intro rest cur
    rw [List.cons_append, splitWSAux, if_neg (by
      simp [hp c (List.mem_cons_self c p')]),
      ih (fun x hx => hp x (List.mem_cons_of_mem _ hx)) rest (c :: cur)]
    simp

lemma str_split_single (s : List Char) (hne : s ≠ [])
    (hs : ∀ c ∈ s, c.isWhitespace = false) :
    str_split s = [s] := by
  have h := splitWSAux_consume s hs [] []
  rw [List.append_nil] at h
  rw [str_split, h, splitWSAux]
  simp [hne]

lemma str_split_join_space (parts : List (List Char))
    (h : ∀ p ∈ parts, p ≠ [] ∧ ∀ c ∈ p, c.isWhitespace = false) :
    str_split (joinTok ' ' parts) = parts := by
  induction parts with
  | nil => rfl
  | cons p ps ih =>
    cases ps with
    | nil =>
      have hp := h p (List.mem_cons_self p [])
      exact str_split_single p hp.1 hp.2
    | cons q rest =>
      have hp := h p (List.mem_cons_self p _)
      rw [joinTok, str_split,
        splitWSAux_consume p hp.2 (' ' :: joinTok ' ' (q :: rest)) [],
        List.append_nil, splitWSAux, if_pos (by decide),
        if_neg (by simp [hp.1])]
      rw [List.reverse_reverse]
      exact congrArg (p :: ·) (ih fun x hx => h x (List.mem_cons_of_mem _ hx))

lemma dropWhile_ws_eq_self (l : List Char) (h : ∀ c ∈ l, c.isWhitespace = false) :
    l.dropWhile Char.isWhitespace = l := by
  cases l with
  | nil => rfl
  | cons c t =>
    rw [List.dropWhile_cons, if_neg (by simp [h c (List.mem_cons_self c t)])]

lemma pyStrip_eq_self (t : List Char) (h : ∀ c ∈ t, c.isWhitespace = false) :
    pyStrip t = t := by
  rw [pyStrip, dropWhile_ws_eq_self t h,
    dropWhile_ws_eq_self t.reverse (fun c hc => h c (List.mem_reverse.mp hc)),
    List.reverse_reverse]

lemma joinTok_no_ws (sep : Char) (hsep : sep.isWhitespace = false)
    (parts : List (List Char))
    (h : ∀ p ∈ parts, ∀ c ∈ p, c.isWhitespace = false) :
    ∀ c ∈ joinTok sep parts, c.isWhitespace = false := by
  induction parts with
  | nil => intro c hc; simp [joinTok] at hc
  | cons p ps ih =>
    cases ps with
    | nil => exact h p (List.mem_cons_self p [])
    | cons q rest =>
      intro c hc
      rw [joinTok] at hc
      rcases List.mem_append.mp hc with hcp | hcs
      · exact h p (List.mem_cons_self p _) c hcp
      · rcases List.mem_cons.mp hcs with rfl | hcj
        · exact hsep
        · exact ih (fun x hx => h x (List.mem_cons_of_mem _ hx)) c hcj

lemma parse_perm_single_nondigit_token (s : List Char) (hne : s ≠ [])
    (hnows : ∀ c ∈ s, c.isWhitespace = false)
    (hbad : ∃ c ∈ s, c.isDigit = false) :
    parse_perm (some s) = [] := by
  simp only [parse_perm]
  rw [str_split_single s hne hnows]
  have hd : isDigitTok (pyStrip s) = false := by
    rw [pyStrip_eq_self s hnows, isDigitTok]
    obtain ⟨c, hcs, hcd⟩ := hbad
    have hall : s.all Char.isDigit = false := by
      rw [Bool.eq_false_iff]
      intro hall
      rw [List.all_eq_true.mp hall c hcs] at hcd
      exact absurd hcd (by decide)
    simp [hall]
  simp [List.filter_cons, hd]

/-- C3 counterexample: `parse_perm` applied to the `;`-joined serialization
of `[1, 2]` yields `[]`, not `[1, 2]` — the whole string `"1;2"` is a
single non-digit token — while the space-joined serialization parses
correctly, so the two forms do not agree. -/
theorem parse_perm_semicolon_counterexample :
    parse_perm (some (joinTok ';' ([1, 2].map natChars))) ≠ [1, 2] ∧
      parse_perm (some (joinTok ' ' ([1, 2].map natChars))) = [1, 2] := by
  constructor
  · decide
  · decide

/-- C3 (amended): for every list of positive integers, `parse_perm`
returns that list when the tokens are whitespace-separated (non-digit
tokens ignored), but the `;`-joined serialization of a list with at least
two elements is a single non-digit token and parses to the empty list. -/
theorem parse_perm_serializations (l : List Nat) (hpos : ∀ x ∈ l, 0 < x) :
    parse_perm (some (joinTok ' ' (l.map natChars))) = l ∧
      (2 ≤ l.length → parse_perm (some (joinTok ';' (l.map natChars))) = []) := by
  have hparts : ∀ p ∈ l.map natChars, p ≠ [] ∧ ∀ c ∈ p, c.isWhitespace = false := by
    intro p hp
    obtain ⟨x, _, rfl⟩ := List.mem_map.mp hp
    refine ⟨(natChars_spec x).1, fun c hc => ?_⟩
    obtain ⟨d, hd, rfl⟩ := (natChars_spec x).2 c hc
    exact (digitChar_facts d hd).2.1
  constructor
  · simp only [parse_perm]
    rw [str_split_join_space (l.map natChars) hparts]
    have hfilter : ((l.map natChars).filter fun t => isDigitTok (pyStrip t)) =
        l.map natChars := by
      refine List.filter_eq_self.mpr fun p hp => ?_
      rw [pyStrip_eq_self p (hparts p hp).2, isDigitTok, Bool.and_eq_true]
      refine ⟨by simp [(hparts p hp).1], List.all_eq_true.mpr ?_⟩
      intro c hc
      obtain ⟨x, _, rfl⟩ := List.mem_map.mp hp
      obtain ⟨d, hd, rfl⟩ := (natChars_spec x).2 c hc
      exact (digitChar_facts d hd).1
    rw [hfilter, List.map_map]
    have hpt : ∀ x ∈ l, ((fun t => tokNat (pyStrip t)) ∘ natChars) x = x := by
      intro x hx
      have hnc : ∀ c ∈ natChars x, c.isWhitespace = false := by
        intro c hc
        obtain ⟨d, hd, rfl⟩ := (natChars_spec x).2 c hc
        exact (digitChar_facts d hd).2.1
      simp only [Function.comp_apply]
      rw [pyStrip_eq_self _ hnc, tokNat_natChars]
    calc List.map ((fun t => tokNat (pyStrip t)) ∘ natChars) l
        = List.map id l := List.map_congr_left fun x hx => hpt x hx
      _ = l := List.map_id l
  · intro hlen
    cases l with
    | nil => simp at hlen
    | cons x l' =>
      cases l' with
      | nil => simp at hlen
      | cons y rest =>
        have hs_form : joinTok ';' ((x :: y :: rest).map natChars) =
            natChars x ++ ';' :: joinTok ';' ((y :: rest).map natChars) := rfl
        have hnows : ∀ c ∈ joinTok ';' ((x :: y :: rest).map natChars),
            c.isWhitespace = false :=
          joinTok_no_ws ';' (by decide) _ fun p hp => (hparts p hp).2
        have hne : joinTok ';' ((x :: y :: rest).map natChars) ≠ [] := by
          rw [hs_form]
          intro h
          exact (natChars_spec x).1 (List.append_eq_nil.mp h).1
        have hsemi : ';' ∈ joinTok ';' ((x :: y :: rest).map natChars) := by
          rw [hs_form]
          exact List.mem_append_right _ (List.mem_cons_self _ _)
        exact parse_perm_single_nondigit_token _ hne hnows ⟨';', hsemi, by decide⟩

theorem parse_perm_serializations_witness :
    (∀ x ∈ ([1, 2] : List Nat), 0 < x) ∧
      parse_perm (some (joinTok ' ' (([1, 2] : List Nat).map natChars))) = [1, 2] :=
  ⟨by decide, (parse_perm_serializations [1, 2] (by decide)).1⟩

/-- The inner neighbour loop of the DFS in `build_graph_components`
(`aggregate_motif_stability.py` lines 105-111): `for w in adj[v]: if not
visited[w]: visited[w] = True; stack.append(w)`.  The stack is modelled
head-on-top (Python appends to and pops from the end of its list). -/
def dfsPush {n : Nat} (visited : Finset (Fin n)) (stack : List (Fin n))
    (ws : List (Fin n)) : Finset (Fin n) × List (Fin n) :=
  ws.foldl (fun acc w => if w ∈ acc.1 then acc else (insert w acc.1, w :: acc.2))
    (visited, stack)

lemma dfsPush_spec {n : Nat} (ws : List (Fin n)) (visited : Finset (Fin n))
    (stack : List (Fin n)) :
    ∃ new : List (Fin n),
      (dfsPush visited stack ws).2 = new ++ stack ∧ new.Nodup ∧
        (∀ x ∈ new, x ∉ visited) ∧
        (dfsPush visited stack ws).1 = visited ∪ new.toFinset := by
  induction ws generalizing visited stack with
  | nil => exact ⟨[], rfl, List.nodup_nil, by simp, by simp [dfsPush]⟩
  | cons w ws ih =>
    have hstep : dfsPush visited stack (w :: ws) =
        if w ∈ visited then dfsPush visited stack ws
        else dfsPush (insert w visited) (w :: stack) ws := by
      rw [dfsPush, List.foldl_cons]
      by_cases hw : w ∈ visited
      · rw [if_pos hw, if_pos hw]
        rfl
      · rw [if_neg hw, if_neg hw]
        rfl
    by_cases hw : w ∈ visited
    · rw [hstep, if_pos hw]
      exact ih visited stack
    · rw [hstep, if_neg hw]
      obtain ⟨new₂, h2, hnd2, hnv2, hv2⟩ := ih (insert w visited) (w :: stack)
      refine ⟨new₂ ++ [w], ?_, ?_, ?_, ?_⟩
      · rw [h2, List.append_assoc, List.singleton_append]
      · rw [List.nodup_append]
        exact ⟨hnd2, List.nodup_singleton w,
          fun x hx hxw => hnv2 x hx
            ((List.mem_singleton.mp hxw) ▸ Finset.mem_insert_self w visited)⟩
      · intro x hx
        rcases List.mem_append.mp hx with h | h
        · exact fun hv => hnv2 x h (Finset.mem_insert_of_mem hv)
        · exact (List.mem_singleton.mp h) ▸ hw
      · rw [hv2]
        ext x
        simp only [Finset.mem_union, Finset.mem_insert, List.mem_toFinset,
          List.mem_append, List.mem_singleton]
        tauto

/-- The `while stack:` DFS loop of `build_graph_components`
(`aggregate_motif_stability.py` lines 102-111): pop `v`, append it to the
current component, and push its unvisited neighbours (marking them
visited).  Vertices are `Fin n`, matching the `range(n)` index space of
the Python adjacency list. -/
def dfsLoop {n : Nat} (adj : Fin n → List (Fin n)) :
    Finset (Fin n) → List (Fin n) → List (Fin n) → Finset (Fin n) × List (Fin n)
  | visited, [], comp => (visited, comp)
  | visited, v :: st, comp =>
    dfsLoop adj (dfsPush visited st (adj v)).1 (dfsPush visited st (adj v)).2
      (comp ++ [v])
termination_by visited stack _ => stack.length + 2 * (n - visited.card)
decreasing_by
  obtain ⟨new, h2, hnd, hnv, h1⟩ := dfsPush_spec (adj v) visited st
  have hdisj : Disjoint visited new.toFinset :=
    Finset.disjoint_right.mpr fun x hx => hnv x (List.mem_toFinset.mp hx)
  have hcard : (visited ∪ new.toFinset).card = visited.card + new.length := by
    rw [Finset.card_union_of_disjoint hdisj, List.toFinset_card_of_nodup hnd]
  have hb : (visited ∪ new.toFinset).card ≤ n := by
    have := Finset.card_le_univ (visited ∪ new.toFinset)
    simpa using this
  simp only [h1, h2, List.length_append, hcard, List.length_cons]
  omega

lemma dfsLoop_spec {n : Nat} (adj : Fin n → List (Fin n)) :
    ∀ (μ : Nat) (visited : Finset (Fin n)) (stack comp : List (Fin n)),
      stack.length + 2 * (n - visited.card) ≤ μ →
      (∀ x ∈ stack, x ∈ visited) → (∀ x ∈ comp, x ∈ visited) →
      (stack ++ comp).Nodup →
      visited ⊆ (dfsLoop adj visited stack comp).1 ∧
        (dfsLoop adj visited stack comp).2.Nodup ∧
        (∀ x, x ∈ (dfsLoop adj visited stack comp).2 ↔
          x ∈ comp ∨ x ∈ stack ∨
            (x ∈ (dfsLoop adj visited stack comp).1 ∧ x ∉ visited)) := by
  intro μ
  induction μ using Nat.strong_induction_on with
  | _ μ ih =>
    intro visited stack comp hμ hstack hcomp hnd
    cases stack with
    | nil =>
      simp only [dfsLoop]
      refine ⟨Finset.Subset.refl visited, by simpa using hnd, fun x => ?_⟩
      constructor
      · exact fun hx => Or.inl hx
      · rintro (hx | hx | ⟨hxv, hnx⟩)
        · exact hx
        · exact absurd hx (List.not_mem_nil x)
        · exact absurd hxv hnx
    | cons v st =>
      simp only [dfsLoop]
      obtain ⟨new, h2, hndnew, hnv, h1⟩ := dfsPush_spec (adj v) visited st
      have hvmem : v ∈ visited := hstack v (List.mem_cons_self v st)
      have hdisj : Disjoint visited new.toFinset :=
        Finset.disjoint_right.mpr fun x hx => hnv x (List.mem_toFinset.mp hx)
      have hcard : (visited ∪ new.toFinset).card = visited.card + new.length := by
        rw [Finset.card_union_of_disjoint hdisj, List.toFinset_card_of_nodup hndnew]
      have hb : (visited ∪ new.toFinset).card ≤ n := by
        have := Finset.card_le_univ (visited ∪ new.toFinset)
        simpa using this
      -- old nodup facts
      have hndo := hnd
      rw [List.cons_append, List.nodup_cons] at hndo
      obtain ⟨hvnot, hndsc⟩ := hndo
      -- measure decreases
      have hμ' : (dfsPush visited st (adj v)).2.length +
          2 * (n - (dfsPush visited st (adj v)).1.card) < μ := by
        rw [h1, h2, List.length_append, hcard]
        simp only [List.length_cons] at hμ
        omega
      have hstack' : ∀ x ∈ (dfsPush visited st (adj v)).2,
          x ∈ (dfsPush visited st (adj v)).1 := by
        intro x hx
        rw [h2] at hx
        rw [h1]
        rcases List.mem_append.mp hx with h | h
        · exact Finset.mem_union_right _ (List.mem_toFinset.mpr h)
        · exact Finset.mem_union_left _
            (hstack x (List.mem_cons_of_mem v h))
      have hcomp' : ∀ x ∈ comp ++ [v], x ∈ (dfsPush visited st (adj v)).1 := by
        intro x hx
        rw [h1]
        rcases List.mem_append.mp hx with h | h
        · exact Finset.mem_union_left _ (hcomp x h)
        · exact Finset.mem_union_left _ ((List.mem_singleton.mp h) ▸ hvmem)
      have hnd' : ((dfsPush visited st (adj v)).2 ++ (comp ++ [v])).Nodup := by
        rw [h2, List.append_assoc, List.nodup_append]
        refine ⟨hndnew, ?_, ?_⟩
        · -- (st ++ (comp ++ [v])).Nodup
          rw [List.nodup_append] at hndsc ⊢
          obtain ⟨hst, hcompnd, hdisjsc⟩ := hndsc
          refine ⟨hst, ?_, ?_⟩
          · rw [List.nodup_append]
            refine ⟨hcompnd, List.nodup_singleton v, ?_⟩
            intro x hx hxv
            exact hvnot (List.mem_append_right st ((List.mem_singleton.mp hxv) ▸ hx))
          · intro x hx hxc
            rcases List.mem_append.mp hxc with h | h
            · exact hdisjsc hx h
            · exact hvnot (List.mem_append_left comp ((List.mem_singleton.mp h) ▸ hx))
        · intro x hx hxsc
          have hxv : x ∈ visited := by
            rcases List.mem_append.mp hxsc with h | h
            · exact hstack x (List.mem_cons_of_mem v h)
            · rcases List.mem_append.mp h with h | h
              · exact hcomp x h
              · exact (List.mem_singleton.mp h) ▸ hvmem
          exact hnv x hx hxv
      obtain ⟨hsub, hndres, hiff⟩ := ih _ hμ' (dfsPush visited st (adj v)).1
        (dfsPush visited st (adj v)).2 (comp ++ [v]) (le_refl _) hstack' hcomp' hnd'
      refine ⟨Finset.Subset.trans (by rw [h1]; exact Finset.subset_union_left) hsub,
        hndres, fun x => ?_⟩
      rw [hiff x]
      constructor
      · rintro (hx | hx | ⟨hxr, hxnv⟩)
        · rcases List.mem_append.mp hx with h | h
          · exact Or.inl h
          · exact Or.inr (Or.inl ((List.mem_singleton.mp h) ▸ List.mem_cons_self v st))
        · rw [h2] at hx
          rcases List.mem_append.mp hx with h | h
          · refine Or.inr (Or.inr ⟨hsub ?_, hnv x h⟩)
            rw [h1]
            exact Finset.mem_union_right _ (List.mem_toFinset.mpr h)
          · exact Or.inr (Or.inl (List.mem_cons_of_mem v h))
        · refine Or.inr (Or.inr ⟨hxr, fun hv => hxnv ?_⟩)
          rw [h1]
          exact Finset.mem_union_left _ hv
      · rintro (hx | hx | ⟨hxr, hxnv⟩)
        · exact Or.inl (List.mem_append_left [v] hx)
        · rcases List.mem_cons.mp hx with rfl | h
          · exact Or.inl (List.mem_append_right comp (List.mem_singleton.mpr rfl))
          · exact Or.inr (Or.inl (h2 ▸ List.mem_append_right new h))
        · by_cases hxnew : x ∈ new
          · exact Or.inr (Or.inl (h2 ▸ List.mem_append_left st hxnew))
          · refine Or.inr (Or.inr ⟨hxr, ?_⟩)
            rw [h1]
            intro hmem
            rcases Finset.mem_union.mp hmem with h | h
            · exact hxnv h
            · exact hxnew (List.mem_toFinset.mp h)

/-- Python `sorted(comp)` on a component of vertex indices. -/
def sortFin {n : Nat} (l : List (Fin n)) : List (Fin n) :=
  List.insertionSort (· ≤ ·) l

/-- One iteration of the outer `for i in range(n_nodes)` loop of
`build_graph_components`: skip visited seeds, otherwise mark the seed,
run the DFS from it and append the sorted component. -/
def compStep {n : Nat} (adj : Fin n → List (Fin n))
    (acc : Finset (Fin n) × List (List (Fin n))) (i : Fin n) :
    Finset (Fin n) × List (List (Fin n)) :=
  if i ∈ acc.1 then acc
  else ((dfsLoop adj (insert i acc.1) [i] []).1,
    acc.2 ++ [sortFin (dfsLoop adj (insert i acc.1) [i] []).2])

/-- The component list produced by `build_graph_components` for a given
adjacency structure. -/
def buildComponents {n : Nat} (adj : Fin n → List (Fin n)) :
    List (List (Fin n)) :=
  ((List.finRange n).foldl (compStep adj) (∅, [])).2

/-- The adjacency list built by `build_graph_components`
(`aggregate_motif_stability.py` lines 90-95): `adj[v]` collects, from the
pair list, the opposite endpoint of every pair of weight `≥ threshold`
incident to `v`. -/
def buildAdj (n : Nat) (pairs : List (Fin n × Fin n × ℚ)) (threshold : ℚ)
    (v : Fin n) : List (Fin n) :=
  (pairs.filter fun pr => threshold ≤ pr.2.2 ∧ (pr.1 = v ∨ pr.2.1 = v)).map
    fun pr => if pr.1 = v then pr.2.1 else pr.1

/-- `build_graph_components(n_nodes, pairs, threshold)` from
`aggregate_motif_stability.py` lines 89-113: build the adjacency lists and
extract connected components by iterative DFS. -/
def build_graph_components (n : Nat) (pairs : List (Fin n × Fin n × ℚ))
    (threshold : ℚ) : List (List (Fin n)) :=
  buildComponents (buildAdj n pairs threshold)

/-- `build_pairwise_jaccard` from `aggregate_motif_stability.py` lines
78-87: the `(i, j, jaccard)` triples for all `i < j` over the cluster
records (a record's `perm_indices` member set is what the Jaccard uses). -/
def build_pairwise_jaccard (cluster_list : List (Finset Nat)) :
    List (Fin cluster_list.length × Fin cluster_list.length × ℚ) :=
  (List.finRange cluster_list.length).flatMap fun i =>
    ((List.finRange cluster_list.length).filter fun j => i < j).map fun j =>
      (i, j, jaccard (cluster_list.get i) (cluster_list.get j))

lemma compStep_foldl_spec {n : Nat} (adj : Fin n → List (Fin n)) :
    ∀ (l : List (Fin n)) (V : Finset (Fin n)) (comps : List (List (Fin n))),
      comps.flatten.Nodup → comps.flatten.toFinset = V →
      (l.foldl (compStep adj) (V, comps)).2.flatten.Nodup ∧
        (l.foldl (compStep adj) (V, comps)).2.flatten.toFinset =
          (l.foldl (compStep adj) (V, comps)).1 ∧
        V ⊆ (l.foldl (compStep adj) (V, comps)).1 ∧
        ∀ i ∈ l, i ∈ (l.foldl (compStep adj) (V, comps)).1 := by
  intro l
  induction l with
  | nil =>
    intro V comps hnd hfin
    exact ⟨hnd, hfin, Finset.Subset.refl V, by simp⟩
  | cons i l' ih =>
    intro V comps hnd hfin
    rw [List.foldl_cons]
    by_cases hi : i ∈ V
    · rw [compStep, if_pos hi]
      obtain ⟨h1, h2, h3, h4⟩ := ih V comps hnd hfin
      exact ⟨h1, h2, h3, fun j hj => by
        rcases List.mem_cons.mp hj with rfl | hj'
        · exact h3 hi
        · exact h4 j hj'⟩
    · rw [compStep, if_neg hi]
      obtain ⟨hsub, hndC, hiffC⟩ := dfsLoop_spec adj
        (1 + 2 * (n - (insert i V).card)) (insert i V) [i] []
        (by simp) (by simp) (by simp) (by simp)
      have hiffC' : ∀ x, x ∈ (dfsLoop adj (insert i V) [i] []).2 ↔
          x = i ∨ (x ∈ (dfsLoop adj (insert i V) [i] []).1 ∧ x ∉ insert i V) := by
        intro x
        rw [hiffC x]
        simp
      have hmemsort : ∀ x, x ∈ sortFin (dfsLoop adj (insert i V) [i] []).2 ↔
          x ∈ (dfsLoop adj (insert i V) [i] []).2 :=
        fun x => (List.perm_insertionSort (· ≤ ·) _).mem_iff
      have hjoin : (comps ++ [sortFin (dfsLoop adj (insert i V) [i] []).2]).flatten =
          comps.flatten ++ sortFin (dfsLoop adj (insert i V) [i] []).2 := by
        simp
      have hndj : (comps ++ [sortFin (dfsLoop adj (insert i V) [i] []).2]).flatten.Nodup := by
        rw [hjoin, List.nodup_append]
        refine ⟨hnd, ((List.perm_insertionSort (· ≤ ·) _).nodup_iff).mpr hndC, ?_⟩
        intro x hx hxS
        have hxV : x ∈ V := by
          rw [← hfin]
          exact List.mem_toFinset.mpr hx
        rcases (hiffC' x).mp ((hmemsort x).mp hxS) with rfl | ⟨_, hnx⟩
        · exact hi hxV
        · exact hnx (Finset.mem_insert_of_mem hxV)
      have hfinj : (comps ++ [sortFin (dfsLoop adj (insert i V) [i] []).2]).flatten.toFinset =
          (dfsLoop adj (insert i V) [i] []).1 := by
        rw [hjoin]
        ext x
        simp only [List.toFinset_append, Finset.mem_union, List.mem_toFinset, hfin]
        constructor
        · rintro (hxV | hxS)
          · exact hsub (Finset.mem_insert_of_mem hxV)
          · rcases (hiffC' x).mp ((hmemsort x).mp hxS) with rfl | ⟨hxr, _⟩
            · exact hsub (Finset.mem_insert_self x V)
            · exact hxr
        · intro hxr
          by_cases hxiV : x ∈ insert i V
          · rcases Finset.mem_insert.mp hxiV with rfl | hxV
            · exact Or.inr ((hmemsort x).mpr ((hiffC' x).mpr (Or.inl rfl)))
            · exact Or.inl hxV
          · exact Or.inr ((hmemsort x).mpr ((hiffC' x).mpr (Or.inr ⟨hxr, hxiV⟩)))
      obtain ⟨H1, H2, H3, H4⟩ := ih (dfsLoop adj (insert i V) [i] []).1
        (comps ++ [sortFin (dfsLoop adj (insert i V) [i] []).2]) hndj hfinj
      refine ⟨H1, H2, fun x hx => H3 (hsub (Finset.mem_insert_of_mem hx)), ?_⟩
      intro j hj
      rcases List.mem_cons.mp hj with rfl | hj'
      · exact H3 (hsub (Finset.mem_insert_self j V))
      · exact H4 j hj'

lemma countP_not_mem_flatten {α : Type} [DecidableEq α] (comps : List (List α)) (v : α)
    (h : v ∉ comps.flatten) : comps.countP (fun c => decide (v ∈ c)) = 0 := by
  induction comps with
  | nil => rfl
  | cons c rest ih =>
    rw [List.countP_cons]
    have hvc : v ∉ c := fun hv =>
      h (List.mem_flatten.mpr ⟨c, List.mem_cons_self c rest, hv⟩)
    have hvr : v ∉ rest.flatten := fun hv => by
      rw [List.flatten_cons] at h
      exact h (List.mem_append_right c hv)
    rw [ih hvr]
    simp [hvc]

lemma countP_mem_flatten_nodup {α : Type} [DecidableEq α] (comps : List (List α)) (v : α)
    (hnd : comps.flatten.Nodup) (h : v ∈ comps.flatten) :
    comps.countP (fun c => decide (v ∈ c)) = 1 := by
  induction comps with
  | nil => simp at h
  | cons c rest ih =>
    rw [List.flatten_cons] at h hnd
    rw [List.nodup_append] at hnd
    obtain ⟨hc, hrest, hdisj⟩ := hnd
    rw [List.countP_cons]
    by_cases hvc : v ∈ c
    · have hvr : v ∉ rest.flatten := fun hv => hdisj hvc hv
      rw [countP_not_mem_flatten rest v hvr]
      simp [hvc]
    · rcases List.mem_append.mp h with hx | hx
      · exact absurd hx hvc
      · rw [ih hrest hx]
        simp [hvc]

lemma flatten_nodup_pairwise {α : Type} (comps : List (List α))
    (hnd : comps.flatten.Nodup) :
    comps.Pairwise (fun c d => ∀ v, v ∈ c → v ∉ d) := by
  induction comps with
  | nil => exact List.Pairwise.nil
  | cons c rest ih =>
    rw [List.flatten_cons, List.nodup_append] at hnd
    obtain ⟨hc, hrest, hdisj⟩ := hnd
    refine List.Pairwise.cons ?_ (ih hrest)
    intro d hd v hvc hvd
    exact hdisj hvc (List.mem_flatten.mpr ⟨d, hd, hvd⟩)

lemma foldr_union_toFinset {n : Nat} (comps : List (List (Fin n))) :
    comps.foldr (fun c acc => c.toFinset ∪ acc) ∅ = comps.flatten.toFinset := by
  induction comps with
  | nil => simp
  | cons c rest ih => simp [ih]

lemma buildComponents_flatten {n : Nat} (adj : Fin n → List (Fin n)) :
    (buildComponents adj).flatten.Nodup ∧
      (buildComponents adj).flatten.toFinset = Finset.univ := by
  obtain ⟨h1, h2, _, h4⟩ :=
    compStep_foldl_spec adj (List.finRange n) ∅ [] (by simp) (by simp)
  refine ⟨h1, ?_⟩
  show ((List.finRange n).foldl (compStep adj) (∅, [])).2.flatten.toFinset = Finset.univ
  rw [h2]
  exact Finset.eq_univ_iff_forall.mpr fun v => h4 v (List.mem_finRange v)

/-- C6: for every collection of cluster records and every Jaccard
threshold, the connected components returned by `build_graph_components`
partition the vertex set exactly: every input cluster index appears in
exactly one component, the union of all components equals the full vertex
set, and components are pairwise disjoint (singleton components simply
being components of size one). -/
theorem graph_components_partition (cluster_list : List (Finset Nat)) (threshold : ℚ) :
    (∀ v : Fin cluster_list.length,
        (build_graph_components cluster_list.length
          (build_pairwise_jaccard cluster_list) threshold).countP
            (fun c => decide (v ∈ c)) = 1) ∧
      (build_graph_components cluster_list.length
          (build_pairwise_jaccard cluster_list) threshold).foldr
        (fun c acc => c.toFinset ∪ acc) ∅ = Finset.univ ∧
      (build_graph_components cluster_list.length
          (build_pairwise_jaccard cluster_list) threshold).Pairwise
        (fun c d => ∀ v, v ∈ c → v ∉ d) := by
  obtain ⟨hnd, hfin⟩ := buildComponents_flatten
    (buildAdj cluster_list.length (build_pairwise_jaccard cluster_list) threshold)
  refine ⟨fun v => ?_, ?_, flatten_nodup_pairwise _ hnd⟩
  · apply countP_mem_flatten_nodup _ _ hnd
    have hv := Finset.mem_univ v
    rw [← hfin] at hv
    exact List.mem_toFinset.mp hv
  · rw [build_graph_components, foldr_union_toFinset, hfin]

end Ingarden
